import Mathlib

/-!
Verification of the shift-scheduling engine (`generateShifts` and its helpers)
against its specification.  The definitions below are a shallow embedding of
the TypeScript source in `src/components/ShiftScheduler.tsx`: pure list and
function computations, with the floating-point fairness ratio modelled by
exact rational arithmetic.
-/

namespace ShiftSpec

/-- The fixed slot catalog, `TIME_SLOTS` in the source. -/
def TIME_SLOTS : List String :=
  ["06:00-12:00", "12:00-18:00", "18:00-00:00", "00:00-06:00"]

/-- Function `isDayShift` from the source: a slot is a day-period slot iff it is one of
the first two catalog entries. -/
def isDayShift (timeSlot : String) : Bool :=
  ["06:00-12:00", "12:00-18:00"].contains timeSlot

/-- A team member: a name and an availability map from day-of-week (0-6) to
the list of slots the member can work that day (`TeamMember` in the source;
a missing day key is modelled by the empty list). -/
structure Person where
  name : String
  availableShifts : Nat → List String

/-- The three caller-supplied numeric settings used by `generateShifts`. -/
structure Settings where
  dayShiftWorkers : Nat
  nightShiftWorkers : Nat
  maxShiftsPerEmployee : Nat
deriving DecidableEq, Repr

/-- One output cell of the schedule (`Shift` in the source). -/
structure Shift where
  day : Nat
  timeSlot : String
  members : List String
deriving DecidableEq, Repr

/-- A candidate cell together with its eligible-person list (an element of the
source's `allShifts` array). -/
structure SCell where
  day : Nat
  timeSlot : String
  availableWorkers : List String
deriving DecidableEq, Repr

/-- Total weekly availability of one member: the number of (day, slot) cells
of the week the member can work (Step 1 of `generateShifts`). -/
def workerAvailability (m : Person) : Nat :=
  ((List.range 7).map
    (fun day => (TIME_SLOTS.filter (fun t => (m.availableShifts day).contains t)).length)).sum

/-- The `workerAvailability` record of the source as a function on names.
For duplicate names the source record keeps the last member's count, hence
the reversed search. -/
def availOf (roster : List Person) (w : String) : Nat :=
  match roster.reverse.find? (fun m => m.name == w) with
  | some m => workerAvailability m
  | none => 0

/-- Eligible-person list of a cell: names of the roster members whose
availability map lists the slot for that day (roster order). -/
def eligibleFor (roster : List Person) (day : Nat) (t : String) : List String :=
  (roster.filter (fun m => (m.availableShifts day).contains t)).map (fun m => m.name)

/-- Step 2 of `generateShifts`: all cells of the week that have at least one
eligible person, enumerated day-major in catalog order. -/
def allCells (roster : List Person) : List SCell :=
  (List.range 7).flatMap (fun day =>
    TIME_SLOTS.filterMap (fun t =>
      if (eligibleFor roster day t).isEmpty then none
      else some ⟨day, t, eligibleFor roster day t⟩))

/-- The cell-priority comparator of Step 3: ascending eligible count, then
ascending day, then ascending slot position in the catalog. -/
def cmpCells (a b : SCell) : Ordering :=
  if a.availableWorkers.length < b.availableWorkers.length then .lt
  else if b.availableWorkers.length < a.availableWorkers.length then .gt
  else if a.day < b.day then .lt
  else if b.day < a.day then .gt
  else if TIME_SLOTS.indexOf a.timeSlot < TIME_SLOTS.indexOf b.timeSlot then .lt
  else if TIME_SLOTS.indexOf b.timeSlot < TIME_SLOTS.indexOf a.timeSlot then .gt
  else .eq

/-- Non-strict cell order: `a` may be placed before `b` by the stable sort. -/
def cellLE (a b : SCell) : Prop := ¬ cmpCells a b = Ordering.gt

instance : DecidableRel cellLE := fun a b => by unfold cellLE; infer_instance

/-- The priority-ordered cell list: `allShifts` after the Step 3 sort. -/
def sortedCells (roster : List Person) : List SCell :=
  List.insertionSort cellLE (allCells roster)

/-- The fairness denominator: total weekly availability floored at 1
(`Math.max(workerAvailability[x], 1)` in the source). -/
def fairnessDenom (avail : String → Nat) (w : String) : Nat :=
  max (avail w) 1

/-- The fairness ratio `load / max(availability, 1)` of the source's worker
comparator, in exact rational arithmetic. -/
def fairnessRatio (cnt avail : String → Nat) (w : String) : ℚ :=
  (cnt w : ℚ) / (fairnessDenom avail w : ℚ)

/-- The epsilon `0.00001` used by the worker comparator. -/
def EPS : ℚ := 1 / 100000

/-- The three-key worker comparator of Step 4: current load ascending, then
fairness ratio ascending with near-ties (within `EPS`) treated as equal, then
total availability descending. -/
def cmpWorkers (cnt avail : String → Nat) (a b : String) : Ordering :=
  if cnt a < cnt b then .lt
  else if cnt b < cnt a then .gt
  else
    if EPS < |fairnessRatio cnt avail a - fairnessRatio cnt avail b| then
      (if fairnessRatio cnt avail a < fairnessRatio cnt avail b then .lt else .gt)
    else if avail b < avail a then .lt
    else if avail a < avail b then .gt
    else .eq

/-- Non-strict worker order: `a` may be placed before `b` by the stable sort. -/
def workerLE (cnt avail : String → Nat) (a b : String) : Prop :=
  ¬ cmpWorkers cnt avail a b = Ordering.gt

instance (cnt avail : String → Nat) : DecidableRel (workerLE cnt avail) :=
  fun a b => by unfold workerLE; infer_instance

/-- The sort `eligibleWorkers.sort(...)` of the source: stable sort of the workers by
the three-key comparator. -/
def sortWorkers (cnt avail : String → Nat) (l : List String) : List String :=
  List.insertionSort (workerLE cnt avail) l

/-- State threaded through one assignment pass: the output shifts so far and
the per-name running load (`newShifts` and `workerShiftCount`). -/
structure PassState where
  shifts : List Shift
  cnt : String → Nat

/-- Increment the load of each assigned worker
(`assignedWorkers.forEach(worker => workerShiftCount[worker]++)`). -/
def bumpCounts (ws : List String) (cnt : String → Nat) : String → Nat :=
  ws.foldl (fun c w => fun x => if x = w then c x + 1 else c x) cnt

/-- The headcount the cell's period requires:
`isDayShift(shift.timeSlot) ? dayShiftWorkers : nightShiftWorkers`. -/
def exactWorkersFor (S : Settings) (cell : SCell) : Nat :=
  if isDayShift cell.timeSlot then S.dayShiftWorkers else S.nightShiftWorkers

/-- The list `eligibleWorkers` of the source: the cell's eligible people whose current
load is still strictly under the weekly cap. -/
def underCap (S : Settings) (cnt : String → Nat) (cell : SCell) : List String :=
  cell.availableWorkers.filter (fun w => cnt w < S.maxShiftsPerEmployee)

/-- The list `assignedWorkers` of the source: the first
`min(assignedCount, eligibleWorkers.length)` workers of the sorted
eligible-and-under-cap list, where
`assignedCount = min(exactWorkers, availableWorkers.length)`. -/
def assignedOf (S : Settings) (avail cnt : String → Nat) (cell : SCell) : List String :=
  (sortWorkers cnt avail (underCap S cnt cell)).take
    (min (min (exactWorkersFor S cell) cell.availableWorkers.length)
      (underCap S cnt cell).length)

/-- Processing of a single cell inside one pass of Step 4. -/
def processCell (S : Settings) (avail : String → Nat) (st : PassState) (cell : SCell) :
    PassState :=
  if 0 < min (exactWorkersFor S cell) cell.availableWorkers.length then
    if (underCap S st.cnt cell).isEmpty then st
    else
      ⟨st.shifts ++ [⟨cell.day, cell.timeSlot, assignedOf S avail st.cnt cell⟩],
        bumpCounts (assignedOf S avail st.cnt cell) st.cnt⟩
  else st

/-- One full assignment pass over the priority-ordered cells, starting from an
empty schedule and all-zero loads. -/
def runPass (S : Settings) (avail : String → Nat) (cells : List SCell) : PassState :=
  cells.foldl (processCell S avail) ⟨[], fun _ => 0⟩

/-- The load values that enter the convergence check: one value per distinct
roster name, zeros dropped.  Only emptiness, minimum and maximum of this list
are ever used, so the key order of the source record is immaterial. -/
def nonzeroCounts (roster : List Person) (cnt : String → Nat) : List Nat :=
  (((roster.map Person.name).dedup).map cnt).filter (fun c => 0 < c)

/-- The spread `max(load) - min(load)` over the nonzero loads (0 for the empty list,
which the loop treats as no stop). -/
def rangeOfCounts : List Nat → Nat
  | [] => 0
  | c :: cs => cs.foldl max c - cs.foldl min c

/-- The convergence check at the bottom of iteration `iter` (0-based):
stop when the nonzero loads are nonempty and their range is at most 1, or at
most 2 with `iter ≥ 2`. -/
def stopCheck (roster : List Person) (cnt : String → Nat) (iter : Nat) : Bool :=
  match nonzeroCounts roster cnt with
  | [] => false
  | c :: cs =>
    decide (rangeOfCounts (c :: cs) ≤ 1 ∨ (rangeOfCounts (c :: cs) ≤ 2 ∧ 2 ≤ iter))

/-- The repair loop of Step 4: run the pass, stop on convergence or after the
fifth iteration, otherwise reset and repeat.  Returns the final shifts, the
final loads and the number of passes performed.  The fuel starts at 5 and is
never exhausted before `4 ≤ iter` fires. -/
def genLoopAux (roster : List Person) (S : Settings) (cells : List SCell) :
    Nat → Nat → List Shift × (String → Nat) × Nat
  | iter, 0 =>
    let res := runPass S (availOf roster) cells
    (res.shifts, res.cnt, iter + 1)
  | iter, fuel + 1 =>
    let res := runPass S (availOf roster) cells
    if stopCheck roster res.cnt iter ∨ 4 ≤ iter then (res.shifts, res.cnt, iter + 1)
    else genLoopAux roster S cells (iter + 1) fuel

/-- Function `generateShifts` of the source: priority-ordered cells, repair loop,
final schedule. -/
def generateShifts (roster : List Person) (S : Settings) : List Shift :=
  (genLoopAux roster S (sortedCells roster) 0 5).1

/-- Number of passes the repair loop performs. -/
def genIterCount (roster : List Person) (S : Settings) : Nat :=
  (genLoopAux roster S (sortedCells roster) 0 5).2.2

/-- Function `getShiftSummary` of the source as a function on names: the total number
of cells a name is assigned to. -/
def getShiftSummary (shifts : List Shift) (w : String) : Nat :=
  (shifts.map (fun sh => sh.members.count w)).sum

/-! ### Relations and loop variants written from the specification's words,
for comparison with the embedded code. -/

/-- The specification's three-key fairness ranking, as a strict
"ranks strictly before" relation: (a) lower current load first; (b) among
equal loads, lower fairness ratio first, ratios within `EPS` of each other
counting as tied; (c) among (near-)tied ratios, higher total weekly
availability first. -/
def specRankBefore (cnt avail : String → Nat) (x y : String) : Prop :=
  cnt x < cnt y ∨ (cnt x = cnt y ∧
    (fairnessRatio cnt avail x + EPS < fairnessRatio cnt avail y ∨
      (|fairnessRatio cnt avail x - fairnessRatio cnt avail y| ≤ EPS ∧ avail y < avail x)))

instance (cnt avail : String → Nat) : DecidableRel (specRankBefore cnt avail) :=
  fun x y => by unfold specRankBefore; infer_instance

/-- Worker `x` may be ranked no later than `y`: `y` does not rank strictly before
`x` under the specification's three keys. -/
def specRankLE (cnt avail : String → Nat) (x y : String) : Prop :=
  ¬ specRankBefore cnt avail y x

/-- The specification's cell-priority order as a strict relation:
ascending eligible count, then ascending day, then ascending slot position
in the catalog. -/
def specCellBefore (a b : SCell) : Prop :=
  a.availableWorkers.length < b.availableWorkers.length ∨
  (a.availableWorkers.length = b.availableWorkers.length ∧
    (a.day < b.day ∨ (a.day = b.day ∧
      TIME_SLOTS.indexOf a.timeSlot < TIME_SLOTS.indexOf b.timeSlot)))

/-- The repair-loop stopping rule exactly as the specification words it:
stop when `range ≤ 1`, or when `range ≤ 2` and at least 2 iterations have
completed.  `completed` counts the passes finished so far, including the one
just run. -/
def specStopCheck (roster : List Person) (cnt : String → Nat) (completed : Nat) : Bool :=
  match nonzeroCounts roster cnt with
  | [] => false
  | c :: cs =>
    decide (rangeOfCounts (c :: cs) ≤ 1 ∨ (rangeOfCounts (c :: cs) ≤ 2 ∧ 2 ≤ completed))

/-- The repair loop with the specification-worded stopping rule: after the
pass of 0-based iteration `iter`, `iter + 1` iterations have completed. -/
def specLoopAux (roster : List Person) (S : Settings) (cells : List SCell) :
    Nat → Nat → List Shift × (String → Nat) × Nat
  | iter, 0 =>
    let res := runPass S (availOf roster) cells
    (res.shifts, res.cnt, iter + 1)
  | iter, fuel + 1 =>
    let res := runPass S (availOf roster) cells
    if specStopCheck roster res.cnt (iter + 1) ∨ 4 ≤ iter then (res.shifts, res.cnt, iter + 1)
    else specLoopAux roster S cells (iter + 1) fuel

/-- Number of passes the specification-worded repair loop performs. -/
def specIterCount (roster : List Person) (S : Settings) : Nat :=
  (specLoopAux roster S (sortedCells roster) 0 5).2.2

/-! ### Concrete inputs used by witnesses and counterexamples. -/

/-- Scenario A of the specification: one person available for every slot of
every day. -/
def fullP : Person := ⟨"p", fun _ => TIME_SLOTS⟩

/-- Scenario A settings: day headcount 1, night headcount 1, weekly cap 10. -/
def scenASettings : Settings := ⟨1, 1, 10⟩

/-- A person available for the first three slots of day 0 and the first slot
of day 1. -/
def wideW : Person :=
  ⟨"a", fun d => if d = 0 then TIME_SLOTS.take 3 else if d = 1 then TIME_SLOTS.take 1 else []⟩

/-- A person available only for the first slot of day 1. -/
def narrowW : Person :=
  ⟨"b", fun d => if d = 1 then TIME_SLOTS.take 1 else []⟩

/-- A person with an empty availability map. -/
def emptyW : Person := ⟨"z", fun _ => []⟩

/-- Relation between the running loads of two runs of the pass that differ
only in the weekly cap (`capL ≤ capH`): every load under the lower cap is at
most the corresponding load under the higher cap, and they are equal unless
the person has already reached the lower cap. -/
def CapInvariant (capL : Nat) (cl ch : String → Nat) : Prop :=
  ∀ w, cl w ≤ ch w ∧ (cl w = ch w ∨ capL ≤ cl w)

end ShiftSpec

namespace ShiftSpec

lemma EPS_pos : 0 < EPS := by norm_num [EPS]

lemma fairnessDenom_pos (avail : String → Nat) (w : String) : 0 < fairnessDenom avail w := by
  unfold fairnessDenom
  omega

lemma fairnessRatio_le_of_avail_le (cnt avail : String → Nat) {x y : String}
    (hc : cnt x = cnt y) (h : avail y ≤ avail x) :
    fairnessRatio cnt avail x ≤ fairnessRatio cnt avail y := by
  unfold fairnessRatio fairnessDenom
  rw [hc]
  have hdx : (0 : ℚ) < ((max (avail x) 1 : Nat) : ℚ) := by
    exact_mod_cast Nat.lt_of_lt_of_le Nat.zero_lt_one (le_max_right _ _)
  have hdy : (0 : ℚ) < ((max (avail y) 1 : Nat) : ℚ) := by
    exact_mod_cast Nat.lt_of_lt_of_le Nat.zero_lt_one (le_max_right _ _)
  rw [div_le_div_iff₀ hdx hdy]
  apply mul_le_mul_of_nonneg_left _ (by positivity)
  exact_mod_cast max_le_max h le_rfl

lemma avail_lt_of_ratio_lt (cnt avail : String → Nat) {x y : String}
    (hc : cnt x = cnt y)
    (h : fairnessRatio cnt avail x < fairnessRatio cnt avail y) :
    avail y < avail x := by
  by_contra hcon
  push_neg at hcon
  exact absurd h (not_lt.mpr (fairnessRatio_le_of_avail_le cnt avail hc.symm hcon))

/-- The source's three-key comparator places `x` strictly first exactly when
`x` has a strictly smaller load, or equal load and strictly more total
availability. -/
lemma cmpWorkers_lt_iff (cnt avail : String → Nat) (x y : String) :
    cmpWorkers cnt avail x y = Ordering.lt ↔
      (cnt x < cnt y ∨ (cnt x = cnt y ∧ avail y < avail x)) := by
  unfold cmpWorkers
  split_ifs with h1 h2 h3 h4 h5 h6
  · simp [h1]
  · simp only [reduceCtorEq, false_iff]
    omega
  · have hc : cnt x = cnt y := by omega
    simp only [true_iff]
    exact Or.inr ⟨hc, avail_lt_of_ratio_lt cnt avail hc h4⟩
  · have hc : cnt x = cnt y := by omega
    simp only [reduceCtorEq, false_iff]
    rintro (h | ⟨-, hav⟩)
    · omega
    · have hle := fairnessRatio_le_of_avail_le cnt avail hc (le_of_lt hav)
      have : fairnessRatio cnt avail x = fairnessRatio cnt avail y := le_antisymm hle (not_lt.mp h4)
      rw [this] at h3
      simp at h3
      exact absurd h3 (not_lt.mpr (le_of_lt EPS_pos))
  · have hc : cnt x = cnt y := by omega
    simp only [true_iff]
    exact Or.inr ⟨hc, h5⟩
  · simp only [reduceCtorEq, false_iff]
    omega
  · simp only [reduceCtorEq, false_iff]
    omega

/-- The source's three-key comparator places `x` strictly last exactly when
`y` has a strictly smaller load, or equal load and strictly more total
availability. -/
lemma cmpWorkers_gt_iff (cnt avail : String → Nat) (x y : String) :
    cmpWorkers cnt avail x y = Ordering.gt ↔
      (cnt y < cnt x ∨ (cnt y = cnt x ∧ avail x < avail y)) := by
  unfold cmpWorkers
  split_ifs with h1 h2 h3 h4 h5 h6
  · simp only [reduceCtorEq, false_iff]
    omega
  · simp [h2]
  · have hc : cnt y = cnt x := by omega
    simp only [reduceCtorEq, false_iff]
    rintro (h | ⟨-, hav⟩)
    · omega
    · have hle := fairnessRatio_le_of_avail_le cnt avail hc (le_of_lt hav)
      exact absurd h4 (not_lt.mpr hle)
  · have hc : cnt y = cnt x := by omega
    simp only [true_iff]
    refine Or.inr ⟨hc, ?_⟩
    have hne : fairnessRatio cnt avail x ≠ fairnessRatio cnt avail y := by
      intro he
      rw [he] at h3
      simp at h3
      exact absurd h3 (not_lt.mpr (le_of_lt EPS_pos))
    have hlt : fairnessRatio cnt avail y < fairnessRatio cnt avail x :=
      lt_of_le_of_ne (not_lt.mp h4) (Ne.symm hne)
    exact avail_lt_of_ratio_lt cnt avail hc hlt
  · simp only [reduceCtorEq, false_iff]
    omega
  · have hc : cnt y = cnt x := by omega
    simp only [true_iff]
    exact Or.inr ⟨hc, h6⟩
  · simp only [reduceCtorEq, false_iff]
    omega

/-- The specification's "ranks strictly before" relation coincides with
"strictly smaller load, or equal load and strictly larger availability". -/
lemma specRankBefore_iff (cnt avail : String → Nat) (x y : String) :
    specRankBefore cnt avail x y ↔
      (cnt x < cnt y ∨ (cnt x = cnt y ∧ avail y < avail x)) := by
  unfold specRankBefore
  constructor
  · rintro (h | ⟨hc, h | ⟨-, hav⟩⟩)
    · exact Or.inl h
    · have hlt : fairnessRatio cnt avail x < fairnessRatio cnt avail y := by
        have := EPS_pos
        linarith
      exact Or.inr ⟨hc, avail_lt_of_ratio_lt cnt avail hc hlt⟩
    · exact Or.inr ⟨hc, hav⟩
  · rintro (h | ⟨hc, hav⟩)
    · exact Or.inl h
    · refine Or.inr ⟨hc, ?_⟩
      have hle : fairnessRatio cnt avail x ≤ fairnessRatio cnt avail y :=
        fairnessRatio_le_of_avail_le cnt avail hc (le_of_lt hav)
      by_cases habs : |fairnessRatio cnt avail x - fairnessRatio cnt avail y| ≤ EPS
      · exact Or.inr ⟨habs, hav⟩
      · left
        push_neg at habs
        rw [abs_sub_comm, abs_of_nonneg (by linarith)] at habs
        linarith

lemma workerLE_iff (cnt avail : String → Nat) (x y : String) :
    workerLE cnt avail x y ↔ (cnt x < cnt y ∨ (cnt x = cnt y ∧ avail y ≤ avail x)) := by
  unfold workerLE
  rw [cmpWorkers_gt_iff]
  omega

/-- The stable-sort order used by the code agrees with the specification's
three-key ranking: `x` may precede `y` under the code's comparator exactly
when `y` does not rank strictly before `x` per the specification. -/
lemma workerLE_iff_specRankLE (cnt avail : String → Nat) (x y : String) :
    workerLE cnt avail x y ↔ specRankLE cnt avail x y := by
  rw [workerLE_iff]
  unfold specRankLE
  rw [specRankBefore_iff]
  omega

lemma workerLE_total (cnt avail : String → Nat) (x y : String) :
    workerLE cnt avail x y ∨ workerLE cnt avail y x := by
  simp only [workerLE_iff]
  omega

lemma workerLE_trans (cnt avail : String → Nat) (x y z : String) :
    workerLE cnt avail x y → workerLE cnt avail y z → workerLE cnt avail x z := by
  simp only [workerLE_iff]
  omega

/-- The cell comparator places `a` strictly first exactly per the
specification's lexicographic key (eligible count, day, slot position). -/
lemma cmpCells_lt_iff (a b : SCell) :
    cmpCells a b = Ordering.lt ↔ specCellBefore a b := by
  unfold cmpCells specCellBefore
  split_ifs <;> simp only [reduceCtorEq, true_iff, false_iff] <;> omega

lemma cmpCells_gt_iff (a b : SCell) :
    cmpCells a b = Ordering.gt ↔ specCellBefore b a := by
  unfold cmpCells specCellBefore
  split_ifs <;> simp only [reduceCtorEq, true_iff, false_iff] <;> omega

lemma cellLE_iff (a b : SCell) : cellLE a b ↔ ¬ specCellBefore b a := by
  unfold cellLE
  rw [cmpCells_gt_iff]

lemma cellLE_total (a b : SCell) : cellLE a b ∨ cellLE b a := by
  simp only [cellLE_iff]
  unfold specCellBefore
  omega

lemma cellLE_trans (a b c : SCell) : cellLE a b → cellLE b c → cellLE a c := by
  simp only [cellLE_iff]
  unfold specCellBefore
  omega

/-- Membership in the candidate-cell list: exactly the cells of the week with
a nonempty eligible list, carrying that eligible list. -/
lemma mem_allCells {roster : List Person} {c : SCell} :
    c ∈ allCells roster ↔
      c.day < 7 ∧ c.timeSlot ∈ TIME_SLOTS ∧
        c.availableWorkers = eligibleFor roster c.day c.timeSlot ∧
        c.availableWorkers ≠ [] := by
  unfold allCells
  simp only [List.mem_flatMap, List.mem_range, List.mem_filterMap]
  constructor
  · rintro ⟨d, hd, t, ht, hsome⟩
    split_ifs at hsome with he
    rw [Option.some_inj] at hsome
    rw [← hsome]
    exact ⟨hd, ht, rfl, by simpa [List.isEmpty_iff] using he⟩
  · rintro ⟨hd, ht, hav, hne⟩
    refine ⟨c.day, hd, c.timeSlot, ht, ?_⟩
    rw [if_neg (by simpa [List.isEmpty_iff] using hav ▸ hne)]
    rw [Option.some_inj]
    cases c
    simp_all

lemma bumpCounts_apply (ws : List String) (cnt : String → Nat) (x : String) :
    bumpCounts ws cnt x = cnt x + ws.count x := by
  induction ws generalizing cnt with
  | nil => simp [bumpCounts]
  | cons w ws ih =>
    show bumpCounts ws (fun y => if y = w then cnt y + 1 else cnt y) x = _
    rw [ih]
    by_cases h : x = w <;> simp [h, List.count_cons] <;> omega

/-- Origin of every shift produced by a pass (or a tail of one): it was
already present, or it records some cell of the processed list together with
the sorted-and-truncated under-cap workers at the loads current then. -/
lemma mem_shifts_foldl (S : Settings) (avail : String → Nat) :
    ∀ (cells : List SCell) (st : PassState) (sh : Shift),
      sh ∈ (cells.foldl (processCell S avail) st).shifts →
      sh ∈ st.shifts ∨ ∃ cell ∈ cells, ∃ cnt : String → Nat,
        sh = ⟨cell.day, cell.timeSlot, assignedOf S avail cnt cell⟩ ∧
          underCap S cnt cell ≠ []
  | [], _, _ => fun h => Or.inl h
  | c :: cs, st, sh => fun h => by
    rcases mem_shifts_foldl S avail cs (processCell S avail st c) sh h with
      h1 | ⟨cell, hc, cnt, he, hne⟩
    · unfold processCell at h1
      split_ifs at h1 with g1 g2
      · exact Or.inl h1
      · rcases List.mem_append.mp h1 with h2 | h2
        · exact Or.inl h2
        · rw [List.mem_singleton] at h2
          refine Or.inr ⟨c, List.mem_cons_self c cs, st.cnt, h2, ?_⟩
          simpa [List.isEmpty_iff] using g2
      · exact Or.inl h1
    · exact Or.inr ⟨cell, List.mem_cons_of_mem c hc, cnt, he, hne⟩

/-- Every iteration of the repair loop starts from reset state, so the loop
result is the single-pass result whatever the iteration counter and fuel. -/
lemma genLoopAux_eq (roster : List Person) (S : Settings) (cells : List SCell) :
    ∀ iter fuel : Nat,
      (genLoopAux roster S cells iter fuel).1 = (runPass S (availOf roster) cells).shifts ∧
      (genLoopAux roster S cells iter fuel).2.1 = (runPass S (availOf roster) cells).cnt
  | _, 0 => ⟨rfl, rfl⟩
  | iter, fuel + 1 => by
    unfold genLoopAux
    dsimp only
    split_ifs with h
    · exact ⟨rfl, rfl⟩
    · exact genLoopAux_eq roster S cells (iter + 1) fuel

lemma generateShifts_eq_runPass (roster : List Person) (S : Settings) :
    generateShifts roster S = (runPass S (availOf roster) (sortedCells roster)).shifts :=
  (genLoopAux_eq roster S (sortedCells roster) 0 5).1

/-- Origin of every shift of the final schedule: it records a candidate cell
(with its eligible list) and the sorted-and-truncated under-cap workers at
the loads current when the cell was processed. -/
lemma mem_generateShifts (roster : List Person) (S : Settings) (sh : Shift)
    (h : sh ∈ generateShifts roster S) :
    ∃ cell ∈ allCells roster, ∃ cnt : String → Nat,
      sh = ⟨cell.day, cell.timeSlot, assignedOf S (availOf roster) cnt cell⟩ ∧
        underCap S cnt cell ≠ [] := by
  rw [generateShifts_eq_runPass] at h
  rcases mem_shifts_foldl S (availOf roster) (sortedCells roster) ⟨[], fun _ => 0⟩ sh h with
    h1 | ⟨cell, hc, cnt, he, hne⟩
  · exact absurd h1 (List.not_mem_nil sh)
  · exact ⟨cell, (List.mem_insertionSort cellLE).mp hc, cnt, he, hne⟩

/-- Claim C2: every person assigned to a cell of the output is eligible for
that cell: some roster member with that name lists the cell's slot in their
availability map for the cell's day. -/
theorem c2_availability_respected (roster : List Person) (S : Settings) :
    ∀ sh ∈ generateShifts roster S, ∀ w ∈ sh.members,
      ∃ m ∈ roster, m.name = w ∧ sh.timeSlot ∈ m.availableShifts sh.day := by
  intro sh hsh w hw
  rcases mem_generateShifts roster S sh hsh with ⟨cell, hcell, cnt, he, -⟩
  rcases mem_allCells.mp hcell with ⟨-, -, hav, -⟩
  subst he
  have hw2 : w ∈ assignedOf S (availOf roster) cnt cell := hw
  have hw3 : w ∈ underCap S cnt cell :=
    (List.mem_insertionSort (workerLE cnt (availOf roster))).mp
      ((List.take_sublist _ _).mem hw2)
  have hw4 : w ∈ cell.availableWorkers := (List.filter_sublist _).mem hw3
  rw [hav] at hw4
  unfold eligibleFor at hw4
  rcases List.mem_map.mp hw4 with ⟨m, hm, hname⟩
  rcases List.mem_filter.mp hm with ⟨hmem, hcont⟩
  refine ⟨m, hmem, hname, ?_⟩
  simpa using hcont

set_option maxRecDepth 100000 in
/-- Witness for C2 at a concrete input: scenario A's single fully available
person is eligible for the first assigned cell. -/
theorem c2_availability_respected_witness :
    ∃ m ∈ [fullP], m.name = "p" ∧ "06:00-12:00" ∈ m.availableShifts 0 :=
  c2_availability_respected [fullP] scenASettings ⟨0, "06:00-12:00", ["p"]⟩
    (by decide) "p" (by decide)

/-- Claim C3: no cell of the output has more members than the minimum of the
required headcount for its period and the number of people eligible for it. -/
theorem c3_headcount_bound (roster : List Person) (S : Settings) :
    ∀ sh ∈ generateShifts roster S,
      sh.members.length ≤
        min (if isDayShift sh.timeSlot then S.dayShiftWorkers else S.nightShiftWorkers)
          (eligibleFor roster sh.day sh.timeSlot).length := by
  intro sh hsh
  rcases mem_generateShifts roster S sh hsh with ⟨cell, hcell, cnt, he, -⟩
  rcases mem_allCells.mp hcell with ⟨-, -, hav, -⟩
  subst he
  dsimp only
  rw [← hav]
  unfold assignedOf
  rw [List.length_take]
  unfold exactWorkersFor
  omega

/-- The assigned list is a subset of the under-cap list, counted with
multiplicity. -/
lemma assignedOf_count_le (S : Settings) (avail cnt : String → Nat) (cell : SCell)
    (w : String) :
    (assignedOf S avail cnt cell).count w ≤ (underCap S cnt cell).count w := by
  calc (assignedOf S avail cnt cell).count w
      ≤ (sortWorkers cnt avail (underCap S cnt cell)).count w :=
        (List.take_sublist _ _).count_le w
    _ = (underCap S cnt cell).count w :=
        (List.perm_insertionSort (workerLE cnt avail) _).count_eq w

lemma mem_underCap_lt_cap (S : Settings) (cnt : String → Nat) (cell : SCell) (w : String)
    (h : w ∈ underCap S cnt cell) : cnt w < S.maxShiftsPerEmployee := by
  have := (List.mem_filter.mp h).2
  simpa using this

lemma mem_assignedOf (S : Settings) (avail cnt : String → Nat) (cell : SCell) (w : String)
    (h : w ∈ assignedOf S avail cnt cell) : w ∈ underCap S cnt cell :=
  (List.mem_insertionSort (workerLE cnt avail)).mp ((List.take_sublist _ _).mem h)

lemma assignedOf_nodup (S : Settings) (avail cnt : String → Nat) (cell : SCell)
    (h : cell.availableWorkers.Nodup) : (assignedOf S avail cnt cell).Nodup := by
  have h1 : (underCap S cnt cell).Nodup := h.filter _
  have h2 : (sortWorkers cnt avail (underCap S cnt cell)).Nodup :=
    (List.perm_insertionSort (workerLE cnt avail) _).nodup_iff.mpr h1
  exact h2.sublist (List.take_sublist _ _)

/-- One cell of processing keeps every load at or below the weekly cap. -/
lemma processCell_cnt_le_cap (S : Settings) (avail : String → Nat) (st : PassState)
    (cell : SCell) (hnd : cell.availableWorkers.Nodup)
    (h : ∀ w, st.cnt w ≤ S.maxShiftsPerEmployee) :
    ∀ w, (processCell S avail st cell).cnt w ≤ S.maxShiftsPerEmployee := by
  intro w
  unfold processCell
  split_ifs with g1 g2
  · exact h w
  · dsimp only
    rw [bumpCounts_apply]
    by_cases hw : w ∈ assignedOf S avail st.cnt cell
    · have hlt : st.cnt w < S.maxShiftsPerEmployee :=
        mem_underCap_lt_cap S st.cnt cell w (mem_assignedOf S avail st.cnt cell w hw)
      have hcount : (assignedOf S avail st.cnt cell).count w ≤ 1 :=
        List.nodup_iff_count_le_one.mp (assignedOf_nodup S avail st.cnt cell hnd) w
      omega
    · rw [List.count_eq_zero.mpr hw]
      exact h w
  · exact h w

lemma foldl_cnt_le_cap (S : Settings) (avail : String → Nat) :
    ∀ (cells : List SCell) (st : PassState),
      (∀ cell ∈ cells, cell.availableWorkers.Nodup) →
      (∀ w, st.cnt w ≤ S.maxShiftsPerEmployee) →
      ∀ w, (cells.foldl (processCell S avail) st).cnt w ≤ S.maxShiftsPerEmployee
  | [], _, _, h => h
  | c :: cs, st, hnd, h =>
    foldl_cnt_le_cap S avail cs (processCell S avail st c)
      (fun cell hc => hnd cell (List.mem_cons_of_mem c hc))
      (processCell_cnt_le_cap S avail st c (hnd c (List.mem_cons_self c cs)) h)

lemma getShiftSummary_append (l1 l2 : List Shift) (w : String) :
    getShiftSummary (l1 ++ l2) w = getShiftSummary l1 w + getShiftSummary l2 w := by
  unfold getShiftSummary
  rw [List.map_append, List.sum_append]

/-- Through a pass, the increase of the per-name summary of the shift list
equals the increase of the running load. -/
lemma summary_cnt_balance (S : Settings) (avail : String → Nat) :
    ∀ (cells : List SCell) (st : PassState) (w : String),
      getShiftSummary (cells.foldl (processCell S avail) st).shifts w + st.cnt w =
        getShiftSummary st.shifts w + (cells.foldl (processCell S avail) st).cnt w
  | [], _, _ => rfl
  | c :: cs, st, w => by
    have step :
        getShiftSummary (processCell S avail st c).shifts w + st.cnt w =
          getShiftSummary st.shifts w + (processCell S avail st c).cnt w := by
      unfold processCell
      split_ifs with g1 g2
      · rfl
      · dsimp only
        rw [getShiftSummary_append, bumpCounts_apply]
        show _ + (getShiftSummary [⟨c.day, c.timeSlot, assignedOf S avail st.cnt c⟩] w) + _ = _
        unfold getShiftSummary
        simp only [List.map_cons, List.map_nil, List.sum_cons, List.sum_nil]
        omega
      · rfl
    have ih := summary_cnt_balance S avail cs (processCell S avail st c) w
    rw [List.foldl_cons]
    omega

/-- The final per-person summary of the schedule equals the final load. -/
lemma getShiftSummary_eq_cnt (S : Settings) (avail : String → Nat) (cells : List SCell)
    (w : String) :
    getShiftSummary (runPass S avail cells).shifts w = (runPass S avail cells).cnt w := by
  have := summary_cnt_balance S avail cells ⟨[], fun _ => 0⟩ w
  simpa [getShiftSummary] using this

/-- Claim C1: when roster names are distinct (the data model's implicit
invariant) and the weekly cap is at least 1, no person's total number of
assignments across the week exceeds the cap. -/
theorem c1_cap_respected (roster : List Person) (S : Settings)
    (hnodup : (roster.map Person.name).Nodup) (hcap : 1 ≤ S.maxShiftsPerEmployee) :
    ∀ w, getShiftSummary (generateShifts roster S) w ≤ S.maxShiftsPerEmployee := by
  intro w
  rw [generateShifts_eq_runPass, getShiftSummary_eq_cnt]
  refine foldl_cnt_le_cap S (availOf roster) (sortedCells roster) ⟨[], fun _ => 0⟩ ?_
    (fun _ => Nat.zero_le _) w
  intro cell hc
  rcases mem_allCells.mp ((List.mem_insertionSort cellLE).mp hc) with ⟨-, -, hav, -⟩
  rw [hav]
  unfold eligibleFor
  exact hnodup.sublist ((List.filter_sublist roster).map Person.name)

set_option maxRecDepth 100000 in
/-- Witness for C1 at a concrete input: scenario A's person ends with 10
assignments, equal to the cap of 10. -/
theorem c1_cap_respected_witness :
    getShiftSummary (generateShifts [fullP] scenASettings) "p" ≤
      scenASettings.maxShiftsPerEmployee :=
  c1_cap_respected [fullP] scenASettings (by decide) (by decide) "p"

set_option maxRecDepth 100000 in
/-- Witness for C3 at a concrete input: the first cell of scenario A's output
holds 1 member, within both bounds. -/
theorem c3_headcount_bound_witness :
    (Shift.members ⟨0, "06:00-12:00", ["p"]⟩).length ≤
      min (if isDayShift "06:00-12:00" then scenASettings.dayShiftWorkers
            else scenASettings.nightShiftWorkers)
        (eligibleFor [fullP] 0 "06:00-12:00").length :=
  c3_headcount_bound [fullP] scenASettings ⟨0, "06:00-12:00", ["p"]⟩ (by decide)

/-- Claim C10: every iteration of the repair loop produces exactly the same
schedule and the same loads as the first iteration (loads are reset and both
comparators are deterministic), so the final output equals the output of one
single pass over the priority-ordered cells. -/
theorem c10_iterations_identical (roster : List Person) (S : Settings) :
    (∀ iter fuel : Nat,
      (genLoopAux roster S (sortedCells roster) iter fuel).1 =
          (runPass S (availOf roster) (sortedCells roster)).shifts ∧
        (genLoopAux roster S (sortedCells roster) iter fuel).2.1 =
          (runPass S (availOf roster) (sortedCells roster)).cnt) ∧
      generateShifts roster S = (runPass S (availOf roster) (sortedCells roster)).shifts :=
  ⟨genLoopAux_eq roster S (sortedCells roster), generateShifts_eq_runPass roster S⟩

/-- Claim C9: the fairness denominator is the total weekly availability
floored at 1, hence positive for every person; for a person with zero
availability it is exactly 1, so the fairness ratio is the load divided by 1
and the computation is total. -/
theorem c9_no_division_by_zero (roster : List Person) (w : String) :
    0 < fairnessDenom (availOf roster) w ∧
      (availOf roster w = 0 →
        fairnessDenom (availOf roster) w = 1 ∧
          ∀ cnt : String → Nat, fairnessRatio cnt (availOf roster) w = (cnt w : ℚ)) := by
  refine ⟨fairnessDenom_pos _ w, fun h0 => ⟨?_, ?_⟩⟩
  · unfold fairnessDenom
    omega
  · intro cnt
    unfold fairnessRatio fairnessDenom
    rw [h0]
    norm_num

/-- Witness for C9 at a concrete input: a person with empty availability has
denominator 1 and ratio equal to the raw load. -/
theorem c9_no_division_by_zero_witness :
    fairnessDenom (availOf [emptyW]) "z" = 1 ∧
      fairnessRatio (fun _ => 3) (availOf [emptyW]) "z" = 3 :=
  ⟨((c9_no_division_by_zero [emptyW] "z").2 (by decide)).1, by
    have h := ((c9_no_division_by_zero [emptyW] "z").2 (by decide)).2 (fun _ => 3)
    rw [h]
    norm_num⟩

/-- One unfolding step of the repair loop. -/
lemma genLoopAux_succ (roster : List Person) (S : Settings) (cells : List SCell)
    (iter fuel : Nat) :
    genLoopAux roster S cells iter (fuel + 1) =
      if stopCheck roster (runPass S (availOf roster) cells).cnt iter ∨ 4 ≤ iter
      then ((runPass S (availOf roster) cells).shifts,
        (runPass S (availOf roster) cells).cnt, iter + 1)
      else genLoopAux roster S cells (iter + 1) fuel := rfl

/-- The convergence check in terms of the nonzero loads and their range. -/
lemma stopCheck_iff (roster : List Person) (cnt : String → Nat) (iter : Nat) :
    stopCheck roster cnt iter = true ↔
      (nonzeroCounts roster cnt ≠ [] ∧
        (rangeOfCounts (nonzeroCounts roster cnt) ≤ 1 ∨
          (rangeOfCounts (nonzeroCounts roster cnt) ≤ 2 ∧ 2 ≤ iter))) := by
  unfold stopCheck
  split
  · next h => simp [h]
  · next c cs h => simp [h]

/-- Exact number of passes of the repair loop, in terms of the range of the
nonzero loads of the (iteration-independent) single pass. -/
lemma genLoopAux_count (roster : List Person) (S : Settings) (cells : List SCell) :
    (genLoopAux roster S cells 0 5).2.2 =
      if nonzeroCounts roster (runPass S (availOf roster) cells).cnt = [] then 5
      else if rangeOfCounts (nonzeroCounts roster (runPass S (availOf roster) cells).cnt) ≤ 1
        then 1
      else if rangeOfCounts (nonzeroCounts roster (runPass S (availOf roster) cells).cnt) ≤ 2
        then 3
      else 5 := by
  show (if stopCheck roster (runPass S (availOf roster) cells).cnt 0 ∨ 4 ≤ 0
        then ((runPass S (availOf roster) cells).shifts,
          (runPass S (availOf roster) cells).cnt, 1)
        else if stopCheck roster (runPass S (availOf roster) cells).cnt 1 ∨ 4 ≤ 1
        then ((runPass S (availOf roster) cells).shifts,
          (runPass S (availOf roster) cells).cnt, 2)
        else if stopCheck roster (runPass S (availOf roster) cells).cnt 2 ∨ 4 ≤ 2
        then ((runPass S (availOf roster) cells).shifts,
          (runPass S (availOf roster) cells).cnt, 3)
        else if stopCheck roster (runPass S (availOf roster) cells).cnt 3 ∨ 4 ≤ 3
        then ((runPass S (availOf roster) cells).shifts,
          (runPass S (availOf roster) cells).cnt, 4)
        else if stopCheck roster (runPass S (availOf roster) cells).cnt 4 ∨ 4 ≤ 4
        then ((runPass S (availOf roster) cells).shifts,
          (runPass S (availOf roster) cells).cnt, 5)
        else ((runPass S (availOf roster) cells).shifts,
          (runPass S (availOf roster) cells).cnt, 6)).2.2 = _
  by_cases hnil : nonzeroCounts roster (runPass S (availOf roster) cells).cnt = []
  · have hs : ∀ i, ¬ (stopCheck roster (runPass S (availOf roster) cells).cnt i = true ∨
        4 ≤ i) ∨ 4 ≤ i := by
      intro i
      by_cases hi : 4 ≤ i
      · exact Or.inr hi
      · refine Or.inl ?_
        rintro (ht | ht)
        · exact ((stopCheck_iff roster _ i).mp ht).1 hnil
        · exact hi ht
    have c0 := (hs 0).resolve_right (by omega)
    have c1 := (hs 1).resolve_right (by omega)
    have c2 := (hs 2).resolve_right (by omega)
    have c3 := (hs 3).resolve_right (by omega)
    rw [if_neg c0, if_neg c1, if_neg c2, if_neg c3,
      if_pos (Or.inr (by omega : (4 : Nat) ≤ 4)), if_pos hnil]
  · by_cases hr1 :
        rangeOfCounts (nonzeroCounts roster (runPass S (availOf roster) cells).cnt) ≤ 1
    · have c0 : stopCheck roster (runPass S (availOf roster) cells).cnt 0 = true ∨
          4 ≤ (0 : Nat) :=
        Or.inl ((stopCheck_iff roster _ 0).mpr ⟨hnil, Or.inl hr1⟩)
      rw [if_pos c0, if_neg hnil, if_pos hr1]
    · by_cases hr2 :
          rangeOfCounts (nonzeroCounts roster (runPass S (availOf roster) cells).cnt) ≤ 2
      · have c0 : ¬ (stopCheck roster (runPass S (availOf roster) cells).cnt 0 = true ∨
            4 ≤ (0 : Nat)) := by
          rintro (ht | ht)
          · rcases ((stopCheck_iff roster _ 0).mp ht).2 with h | ⟨-, h⟩
            · exact hr1 h
            · omega
          · omega
        have c1 : ¬ (stopCheck roster (runPass S (availOf roster) cells).cnt 1 = true ∨
            4 ≤ (1 : Nat)) := by
          rintro (ht | ht)
          · rcases ((stopCheck_iff roster _ 1).mp ht).2 with h | ⟨-, h⟩
            · exact hr1 h
            · omega
          · omega
        have c2 : stopCheck roster (runPass S (availOf roster) cells).cnt 2 = true ∨
            4 ≤ (2 : Nat) :=
          Or.inl ((stopCheck_iff roster _ 2).mpr ⟨hnil, Or.inr ⟨hr2, le_refl 2⟩⟩)
        rw [if_neg c0, if_neg c1, if_pos c2, if_neg hnil, if_neg hr1, if_pos hr2]
      · have hs : ∀ i, ¬ (stopCheck roster (runPass S (availOf roster) cells).cnt i = true ∨
            4 ≤ i) ∨ 4 ≤ i := by
          intro i
          by_cases hi : 4 ≤ i
          · exact Or.inr hi
          · refine Or.inl ?_
            rintro (ht | ht)
            · rcases ((stopCheck_iff roster _ i).mp ht).2 with h | ⟨h, -⟩
              · exact hr1 h
              · exact hr2 h
            · exact hi ht
        have c0 := (hs 0).resolve_right (by omega)
        have c1 := (hs 1).resolve_right (by omega)
        have c2 := (hs 2).resolve_right (by omega)
        have c3 := (hs 3).resolve_right (by omega)
        rw [if_neg c0, if_neg c1, if_neg c2, if_neg c3,
          if_pos (Or.inr (by omega : (4 : Nat) ≤ 4)), if_neg hnil, if_neg hr1, if_neg hr2]

/-- Claim C5 (amended): the repair loop runs the pass at most 5 times,
resetting every load to zero and discarding the previous schedule on every
iteration after the first; every pass yields the same loads, and with `range`
the max minus min of the nonzero final loads, the loop stops after the first
pass iff `range ≤ 1`, after the third iff `1 < range ≤ 2` (the `range ≤ 2`
exit requires at least 3 completed iterations, 0-based index at least 2),
and otherwise returns the fifth pass's result regardless of spread. -/
theorem c5_repair_loop_amended (roster : List Person) (S : Settings) :
    generateShifts roster S = (runPass S (availOf roster) (sortedCells roster)).shifts ∧
      genIterCount roster S =
        (if nonzeroCounts roster (runPass S (availOf roster) (sortedCells roster)).cnt = []
          then 5
         else if rangeOfCounts
            (nonzeroCounts roster (runPass S (availOf roster) (sortedCells roster)).cnt) ≤ 1
          then 1
         else if rangeOfCounts
            (nonzeroCounts roster (runPass S (availOf roster) (sortedCells roster)).cnt) ≤ 2
          then 3
         else 5) :=
  ⟨generateShifts_eq_runPass roster S, genLoopAux_count roster S (sortedCells roster)⟩

set_option maxRecDepth 1000000 in
/-- Counterexample to claim C5 as stated: on this two-person roster every
pass yields loads 3 and 1 (range 2), so under the claim's stopping rule —
stop once `range ≤ 2` and at least 2 iterations have completed — the loop
would stop after its second pass, but the code performs a third pass. -/
theorem c5_counterexample :
    genIterCount [wideW, narrowW] scenASettings = 3 ∧
      specIterCount [wideW, narrowW] scenASettings = 2 ∧
      ¬ genIterCount [wideW, narrowW] scenASettings =
          specIterCount [wideW, narrowW] scenASettings := by
  exact ⟨by decide, by decide, by decide⟩

set_option maxRecDepth 1000000 in
/-- Counterexample to claim C6 as stated: in scenario A (one fully available
person, headcounts 1/1, cap 10) the output assigns only 10 cells and the
person's total is 10, not 28. -/
theorem c6_counterexample :
    getShiftSummary (generateShifts [fullP] scenASettings) "p" = 10 ∧
      ¬ getShiftSummary (generateShifts [fullP] scenASettings) "p" = 28 ∧
      ¬ (generateShifts [fullP] scenASettings).length = 28 := by
  exact ⟨by decide, by decide, by decide⟩

set_option maxRecDepth 1000000 in
/-- Claim C6 (amended): in scenario A the weekly cap of 10 binds: the person
is assigned to exactly the first 10 cells in priority order (all four slots
of days 0 and 1 and the first two slots of day 2) and their total is 10. -/
theorem c6_scenarioA_amended :
    generateShifts [fullP] scenASettings =
      [⟨0, "06:00-12:00", ["p"]⟩, ⟨0, "12:00-18:00", ["p"]⟩, ⟨0, "18:00-00:00", ["p"]⟩,
       ⟨0, "00:00-06:00", ["p"]⟩, ⟨1, "06:00-12:00", ["p"]⟩, ⟨1, "12:00-18:00", ["p"]⟩,
       ⟨1, "18:00-00:00", ["p"]⟩, ⟨1, "00:00-06:00", ["p"]⟩, ⟨2, "06:00-12:00", ["p"]⟩,
       ⟨2, "12:00-18:00", ["p"]⟩] ∧
      getShiftSummary (generateShifts [fullP] scenASettings) "p" = 10 := by
  exact ⟨by decide, by decide⟩

/-- Claim C4: within each processed cell, the assigned workers are the first
`wanted` (capped to the under-cap pool size) of a list that enumerates the
eligible-and-under-cap set sorted ascending by the specification's three-key
ranking: current load; then load over max(total availability, 1) with ratios
within epsilon `1e-5` tied; then higher total availability first. -/
theorem c4_fairness_ranking (S : Settings) (avail : String → Nat) (st : PassState)
    (cell : SCell)
    (hpos : 0 < min (exactWorkersFor S cell) cell.availableWorkers.length)
    (hne : ¬ (underCap S st.cnt cell).isEmpty) :
    ∃ L : List String,
      (underCap S st.cnt cell).Perm L ∧
        List.Sorted (specRankLE st.cnt avail) L ∧
        processCell S avail st cell =
          ⟨st.shifts ++ [⟨cell.day, cell.timeSlot,
              L.take (min (min (exactWorkersFor S cell) cell.availableWorkers.length)
                (underCap S st.cnt cell).length)⟩],
            bumpCounts
              (L.take (min (min (exactWorkersFor S cell) cell.availableWorkers.length)
                (underCap S st.cnt cell).length)) st.cnt⟩ := by
  refine ⟨sortWorkers st.cnt avail (underCap S st.cnt cell), ?_, ?_, ?_⟩
  · exact (List.perm_insertionSort _ _).symm
  · haveI : IsTotal String (workerLE st.cnt avail) := ⟨workerLE_total st.cnt avail⟩
    haveI : IsTrans String (workerLE st.cnt avail) := ⟨workerLE_trans st.cnt avail⟩
    exact (List.sorted_insertionSort (workerLE st.cnt avail) _).imp
      (fun h => (workerLE_iff_specRankLE st.cnt avail _ _).mp h)
  · unfold processCell
    rw [if_pos hpos, if_neg hne]
    rfl

set_option maxRecDepth 100000 in
/-- Witness for C4 at a concrete input: the first cell of scenario A. -/
theorem c4_fairness_ranking_witness :
    ∃ L : List String,
      (underCap scenASettings (fun _ => 0) ⟨0, "06:00-12:00", ["p"]⟩).Perm L ∧
        List.Sorted (specRankLE (fun _ => 0) (availOf [fullP])) L ∧
        processCell scenASettings (availOf [fullP]) ⟨[], fun _ => 0⟩
            ⟨0, "06:00-12:00", ["p"]⟩ =
          ⟨[] ++ [⟨0, "06:00-12:00",
              L.take (min (min (exactWorkersFor scenASettings ⟨0, "06:00-12:00", ["p"]⟩)
                  (SCell.availableWorkers ⟨0, "06:00-12:00", ["p"]⟩).length)
                (underCap scenASettings (fun _ => 0) ⟨0, "06:00-12:00", ["p"]⟩).length)⟩],
            bumpCounts
              (L.take (min (min (exactWorkersFor scenASettings ⟨0, "06:00-12:00", ["p"]⟩)
                  (SCell.availableWorkers ⟨0, "06:00-12:00", ["p"]⟩).length)
                (underCap scenASettings (fun _ => 0) ⟨0, "06:00-12:00", ["p"]⟩).length))
              (fun _ => 0)⟩ :=
  c4_fairness_ranking scenASettings (availOf [fullP]) ⟨[], fun _ => 0⟩
    ⟨0, "06:00-12:00", ["p"]⟩ (by decide) (by decide)

/-- Distinct cells of the candidate list differ in day or slot. -/
lemma allCells_pairwise_ne (roster : List Person) :
    (allCells roster).Pairwise (fun a b => a.day ≠ b.day ∨ a.timeSlot ≠ b.timeSlot) := by
  unfold allCells
  rw [List.pairwise_flatMap]
  constructor
  · intro d _
    refine List.Pairwise.filterMap _ ?_ (show TIME_SLOTS.Pairwise (· ≠ ·) by decide)
    intro a b hab x hx y hy
    right
    split_ifs at hx hy <;>
      simp only [Option.mem_def, Option.some_inj, reduceCtorEq] at hx hy
    rw [← hx, ← hy]
    exact hab
  · refine (List.pairwise_lt_range 7).imp ?_
    intro d1 d2 hlt x hx y hy
    left
    rcases List.mem_filterMap.mp hx with ⟨t1, -, hx1⟩
    rcases List.mem_filterMap.mp hy with ⟨t2, -, hy1⟩
    split_ifs at hx1 hy1 <;>
      simp only [Option.some_inj, reduceCtorEq] at hx1 hy1
    rw [← hx1, ← hy1]
    exact Nat.ne_of_lt hlt

section SortSplit

variable {α : Type} (r s : α → α → Prop) [DecidableRel r] [DecidableRel s]

lemma orderedInsert_append_left (x : α) :
    ∀ (A B : List α), (∀ b ∈ B, r x b) →
      List.orderedInsert r x (A ++ B) = List.orderedInsert r x A ++ B
  | [], B, h => by
    cases B with
    | nil => rfl
    | cons b bs =>
      simp only [List.nil_append, List.orderedInsert, List.orderedInsert_nil]
      rw [if_pos (h b (List.mem_cons_self b bs))]
      rfl
  | a :: A, B, h => by
    simp only [List.cons_append, List.orderedInsert, List.append_eq]
    split_ifs
    · rfl
    · rw [orderedInsert_append_left x A B h, List.cons_append]

lemma orderedInsert_append_right (x : α) :
    ∀ (A B : List α), (∀ a ∈ A, ¬ r x a) →
      List.orderedInsert r x (A ++ B) = A ++ List.orderedInsert r x B
  | [], _, _ => rfl
  | a :: A, B, h => by
    simp only [List.cons_append, List.orderedInsert, List.append_eq]
    rw [if_neg (h a (List.mem_cons_self a A)),
      orderedInsert_append_right x A B (fun b hb => h b (List.mem_cons_of_mem a hb))]

lemma orderedInsert_congr (x : α) :
    ∀ (m : List α), (∀ y ∈ m, r x y ↔ s x y) →
      List.orderedInsert r x m = List.orderedInsert s x m
  | [], _ => rfl
  | y :: m, h => by
    simp only [List.orderedInsert]
    by_cases hxy : r x y
    · rw [if_pos hxy, if_pos ((h y (List.mem_cons_self y m)).mp hxy)]
    · rw [if_neg hxy, if_neg (fun hs2 => hxy ((h y (List.mem_cons_self y m)).mpr hs2)),
        orderedInsert_congr x m (fun z hz => h z (List.mem_cons_of_mem y hz))]

lemma insertionSort_congr :
    ∀ (l : List α), (∀ x ∈ l, ∀ y ∈ l, r x y ↔ s x y) →
      List.insertionSort r l = List.insertionSort s l
  | [], _ => rfl
  | x :: l, h => by
    simp only [List.insertionSort]
    rw [insertionSort_congr l
      (fun a ha b hb => h a (List.mem_cons_of_mem x ha) b (List.mem_cons_of_mem x hb))]
    apply orderedInsert_congr
    intro y hy
    exact h x (List.mem_cons_self x l) y
      (List.mem_cons_of_mem x ((List.mem_insertionSort s).mp hy))

/-- A stable insertion sort of a list whose `p`-elements all sort strictly
before its non-`p`-elements splits as the sort of the `p`-part followed by
the sort of the rest. -/
lemma insertionSort_split (p : α → Bool) :
    ∀ (l : List α),
      (∀ x ∈ l, ∀ y ∈ l, p x = true → p y = false → (r x y ∧ ¬ r y x)) →
      List.insertionSort r l =
        List.insertionSort r (l.filter p) ++
          List.insertionSort r (l.filter (fun a => ! p a))
  | [], _ => rfl
  | x :: l, h => by
    have ih := insertionSort_split p l
      (fun a ha b hb => h a (List.mem_cons_of_mem x ha) b (List.mem_cons_of_mem x hb))
    simp only [List.insertionSort, List.filter_cons]
    by_cases hp : p x = true
    · have hside : ∀ b ∈ List.insertionSort r (l.filter (fun a => ! p a)), r x b := by
        intro b hb
        have hbmem : b ∈ l.filter (fun a => ! p a) := (List.mem_insertionSort r).mp hb
        have hbl : b ∈ l := (List.filter_sublist l).mem hbmem
        have hbp : p b = false := by
          have := (List.mem_filter.mp hbmem).2
          simpa using this
        exact (h x (List.mem_cons_self x l) b (List.mem_cons_of_mem x hbl) hp hbp).1
      simp only [hp, Bool.not_true, if_pos rfl, if_neg (by simp : ¬ (false = true))]
      rw [ih]
      simp only [List.insertionSort]
      exact orderedInsert_append_left r x _ _ hside
    · have hp2 : p x = false := by simpa using hp
      have hside : ∀ a ∈ List.insertionSort r (l.filter p), ¬ r x a := by
        intro a ha
        have hamem : a ∈ l.filter p := (List.mem_insertionSort r).mp ha
        have hal : a ∈ l := (List.filter_sublist l).mem hamem
        have hap : p a = true := (List.mem_filter.mp hamem).2
        exact (h a (List.mem_cons_of_mem x hal) x (List.mem_cons_self x l) hap hp2).2
      simp only [hp2, Bool.not_false, if_pos rfl, if_neg (by simp : ¬ (false = true))]
      rw [ih]
      simp only [List.insertionSort]
      exact orderedInsert_append_right r x _ _ hside

end SortSplit

section CapMono

variable (dayW nightW capL capH : Nat) (avail : String → Nat)

/-- Among the high-cap under-cap pool, the workers still under the lower cap
are exactly the low-cap under-cap pool. -/
lemma underCap_filter_low (cl ch : String → Nat) (cell : SCell)
    (hInv : CapInvariant capL cl ch) (hcap : capL ≤ capH) :
    (underCap ⟨dayW, nightW, capH⟩ ch cell).filter (fun w => decide (cl w < capL)) =
      underCap ⟨dayW, nightW, capL⟩ cl cell := by
  unfold underCap
  rw [List.filter_filter]
  apply List.filter_congr
  intro w _
  rcases hInv w with ⟨hle, heq | hcapped⟩
  · by_cases h : cl w < capL
    · have h2 : ch w < capH := by omega
      simp [h, h2]
    · simp [h]
  · have h : ¬ cl w < capL := by omega
    simp [h]

/-- The high-cap assignment of a cell extends the low-cap assignment: it is
the low-cap assigned list followed by workers already at or above the lower
cap. -/
lemma assignedOf_high_split (cl ch : String → Nat) (cell : SCell)
    (hInv : CapInvariant capL cl ch) (hcap : capL ≤ capH) :
    assignedOf ⟨dayW, nightW, capH⟩ avail ch cell =
      assignedOf ⟨dayW, nightW, capL⟩ avail cl cell ++
        (List.insertionSort (workerLE ch avail)
            ((underCap ⟨dayW, nightW, capH⟩ ch cell).filter
              (fun w => ! decide (cl w < capL)))).take
          (min (min (exactWorkersFor ⟨dayW, nightW, capH⟩ cell)
              cell.availableWorkers.length)
            (underCap ⟨dayW, nightW, capH⟩ ch cell).length -
            (underCap ⟨dayW, nightW, capL⟩ cl cell).length) := by
  have hsep : ∀ x ∈ underCap ⟨dayW, nightW, capH⟩ ch cell,
      ∀ y ∈ underCap ⟨dayW, nightW, capH⟩ ch cell,
      (fun w => decide (cl w < capL)) x = true →
      (fun w => decide (cl w < capL)) y = false →
      (workerLE ch avail x y ∧ ¬ workerLE ch avail y x) := by
    intro x _ y _ hx hy
    have hx2 : cl x < capL := by simpa using hx
    have hy2 : ¬ cl y < capL := by simpa using hy
    rcases hInv x with ⟨-, heqx | hcx⟩
    · rcases hInv y with ⟨hley, -⟩
      have hxy : ch x < ch y := by omega
      constructor
      · rw [workerLE_iff]
        omega
      · rw [workerLE_iff]
        omega
    · omega
  have hsplit := insertionSort_split (workerLE ch avail)
    (fun w => decide (cl w < capL)) (underCap ⟨dayW, nightW, capH⟩ ch cell) hsep
  have hfilter := underCap_filter_low dayW nightW capL capH cl ch cell hInv hcap
  have hcongr :
      List.insertionSort (workerLE ch avail) (underCap ⟨dayW, nightW, capL⟩ cl cell) =
        List.insertionSort (workerLE cl avail) (underCap ⟨dayW, nightW, capL⟩ cl cell) := by
    apply insertionSort_congr
    intro x hx y hy
    have hx2 : cl x < capL := by
      have := (List.mem_filter.mp hx).2
      simpa [underCap] using this
    have hy2 : cl y < capL := by
      have := (List.mem_filter.mp hy).2
      simpa [underCap] using this
    have hex : ch x = cl x := by
      rcases hInv x with ⟨-, h | h⟩ <;> omega
    have hey : ch y = cl y := by
      rcases hInv y with ⟨-, h | h⟩ <;> omega
    rw [workerLE_iff, workerLE_iff, hex, hey]
  have hlen : (underCap ⟨dayW, nightW, capL⟩ cl cell).length ≤
      (underCap ⟨dayW, nightW, capH⟩ ch cell).length := by
    rw [← hfilter]
    exact List.length_filter_le _ _
  show (sortWorkers ch avail (underCap ⟨dayW, nightW, capH⟩ ch cell)).take _ = _
  rw [show sortWorkers ch avail (underCap ⟨dayW, nightW, capH⟩ ch cell) =
      List.insertionSort (workerLE ch avail) (underCap ⟨dayW, nightW, capH⟩ ch cell) from rfl,
    hsplit, hfilter, hcongr, List.take_append_eq_append_take]
  congr 1
  · show (List.insertionSort (workerLE cl avail)
        (underCap ⟨dayW, nightW, capL⟩ cl cell)).take
          (min (min (exactWorkersFor ⟨dayW, nightW, capH⟩ cell)
              cell.availableWorkers.length)
            (underCap ⟨dayW, nightW, capH⟩ ch cell).length) =
      (List.insertionSort (workerLE cl avail)
        (underCap ⟨dayW, nightW, capL⟩ cl cell)).take
          (min (min (exactWorkersFor ⟨dayW, nightW, capH⟩ cell)
              cell.availableWorkers.length)
            (underCap ⟨dayW, nightW, capL⟩ cl cell).length)
    rw [List.take_eq_take, List.length_insertionSort]
    omega
  · rw [List.length_insertionSort]

/-- Processing one cell preserves the cap-comparison invariant between a
low-cap run and a high-cap run. -/
lemma processCell_capInv (stL stH : PassState) (cell : SCell)
    (hInv : CapInvariant capL stL.cnt stH.cnt) (hcap : capL ≤ capH) :
    CapInvariant capL (processCell ⟨dayW, nightW, capL⟩ avail stL cell).cnt
      (processCell ⟨dayW, nightW, capH⟩ avail stH cell).cnt := by
  unfold processCell
  by_cases hpos : 0 < min (exactWorkersFor ⟨dayW, nightW, capL⟩ cell)
      cell.availableWorkers.length
  · rw [if_pos hpos,
      if_pos (show 0 < min (exactWorkersFor ⟨dayW, nightW, capH⟩ cell)
        cell.availableWorkers.length from hpos)]
    by_cases hLempty : (underCap ⟨dayW, nightW, capL⟩ stL.cnt cell).isEmpty
    · rw [if_pos hLempty]
      by_cases hHempty : (underCap ⟨dayW, nightW, capH⟩ stH.cnt cell).isEmpty
      · rw [if_pos hHempty]
        exact hInv
      · rw [if_neg hHempty]
        intro w
        dsimp only
        rw [bumpCounts_apply]
        rcases hInv w with ⟨hle, hrest⟩
        by_cases hwmem : w ∈ assignedOf ⟨dayW, nightW, capH⟩ avail stH.cnt cell
        · have hwU : w ∈ underCap ⟨dayW, nightW, capH⟩ stH.cnt cell :=
            mem_assignedOf _ _ _ _ _ hwmem
          have hwP : ¬ stL.cnt w < capL := by
            intro hP
            have hwL : w ∈ underCap ⟨dayW, nightW, capL⟩ stL.cnt cell := by
              unfold underCap at hwU ⊢
              rw [List.mem_filter] at hwU ⊢
              exact ⟨hwU.1, by simpa using hP⟩
            rw [List.isEmpty_iff] at hLempty
            rw [hLempty] at hwL
            exact absurd hwL (List.not_mem_nil w)
          omega
        · rw [List.count_eq_zero.mpr hwmem]
          omega
    · rw [if_neg hLempty]
      have hHempty : ¬ (underCap ⟨dayW, nightW, capH⟩ stH.cnt cell).isEmpty := by
        rw [List.isEmpty_iff] at hLempty ⊢
        intro hH
        apply hLempty
        rw [← underCap_filter_low dayW nightW capL capH stL.cnt stH.cnt cell hInv hcap, hH]
        rfl
      rw [if_neg hHempty]
      intro w
      dsimp only
      rw [bumpCounts_apply, bumpCounts_apply,
        assignedOf_high_split dayW nightW capL capH avail stL.cnt stH.cnt cell hInv hcap,
        List.count_append]
      rcases hInv w with ⟨hle, hrest⟩
      by_cases hwE : w ∈ (List.insertionSort (workerLE stH.cnt avail)
          ((underCap ⟨dayW, nightW, capH⟩ stH.cnt cell).filter
            (fun v => ! decide (stL.cnt v < capL)))).take
          (min (min (exactWorkersFor ⟨dayW, nightW, capH⟩ cell)
              cell.availableWorkers.length)
            (underCap ⟨dayW, nightW, capH⟩ stH.cnt cell).length -
            (underCap ⟨dayW, nightW, capL⟩ stL.cnt cell).length)
      · have hwK : ¬ stL.cnt w < capL := by
          have h1 := (List.mem_insertionSort (workerLE stH.cnt avail)).mp
            ((List.take_sublist _ _).mem hwE)
          have h2 := (List.mem_filter.mp h1).2
          simpa using h2
        omega
      · rw [List.count_eq_zero.mpr hwE]
        omega
  · rw [if_neg hpos,
      if_neg (show ¬ 0 < min (exactWorkersFor ⟨dayW, nightW, capH⟩ cell)
        cell.availableWorkers.length from hpos)]
    exact hInv

/-- The cap-comparison invariant is preserved across a whole pass. -/
lemma foldl_capInv (hcap : capL ≤ capH) :
    ∀ (cells : List SCell) (stL stH : PassState),
      CapInvariant capL stL.cnt stH.cnt →
      CapInvariant capL
        ((cells.foldl (processCell ⟨dayW, nightW, capL⟩ avail) stL).cnt)
        ((cells.foldl (processCell ⟨dayW, nightW, capH⟩ avail) stH).cnt)
  | [], _, _, h => h
  | c :: cs, stL, stH, h =>
    foldl_capInv hcap cs (processCell ⟨dayW, nightW, capL⟩ avail stL c)
      (processCell ⟨dayW, nightW, capH⟩ avail stH c)
      (processCell_capInv dayW nightW capL capH avail stL stH c h hcap)

end CapMono

/-- Claim C7: lowering the weekly cap, all other inputs unchanged, never
increases any person's total assigned count. -/
theorem c7_cap_monotone (roster : List Person) (dayW nightW capL capH : Nat)
    (hcap : capL ≤ capH) :
    ∀ w, getShiftSummary (generateShifts roster ⟨dayW, nightW, capL⟩) w ≤
      getShiftSummary (generateShifts roster ⟨dayW, nightW, capH⟩) w := by
  intro w
  rw [generateShifts_eq_runPass, generateShifts_eq_runPass,
    getShiftSummary_eq_cnt, getShiftSummary_eq_cnt]
  exact (foldl_capInv dayW nightW capL capH (availOf roster) hcap (sortedCells roster)
    ⟨[], fun _ => 0⟩ ⟨[], fun _ => 0⟩ (fun _ => ⟨le_refl 0, Or.inl rfl⟩) w).1

set_option maxRecDepth 100000 in
/-- Witness for C7 at a concrete input: scenario A's person with cap 3
versus cap 10. -/
theorem c7_cap_monotone_witness :
    getShiftSummary (generateShifts [fullP] ⟨1, 1, 3⟩) "p" ≤
      getShiftSummary (generateShifts [fullP] ⟨1, 1, 10⟩) "p" :=
  c7_cap_monotone [fullP] 1 1 3 10 (by decide) "p"

/-- Claim C8: the processed cell list consists exactly of the cells of the
week with a nonempty eligible list, strictly totally ordered by ascending
eligible count, then day, then slot position in the catalog; it is computed
once before the repair loop and every iteration walks this same list. -/
theorem c8_priority_order (roster : List Person) :
    (sortedCells roster).Perm (allCells roster) ∧
      (∀ c : SCell, c ∈ sortedCells roster ↔
        (c.day < 7 ∧ c.timeSlot ∈ TIME_SLOTS ∧
          c.availableWorkers = eligibleFor roster c.day c.timeSlot ∧
          c.availableWorkers ≠ [])) ∧
      (sortedCells roster).Pairwise specCellBefore := by
  have hperm := List.perm_insertionSort cellLE (allCells roster)
  refine ⟨hperm, ?_, ?_⟩
  · intro c
    rw [sortedCells, List.mem_insertionSort]
    exact mem_allCells
  · haveI : IsTotal SCell cellLE := ⟨cellLE_total⟩
    haveI : IsTrans SCell cellLE := ⟨cellLE_trans⟩
    have hsorted : (sortedCells roster).Pairwise cellLE :=
      List.sorted_insertionSort cellLE (allCells roster)
    have hne : (sortedCells roster).Pairwise
        (fun a b => a.day ≠ b.day ∨ a.timeSlot ≠ b.timeSlot) :=
      (hperm.pairwise_iff (fun h => h.imp Ne.symm Ne.symm)).mpr (allCells_pairwise_ne roster)
    refine (hsorted.and hne).imp_of_mem ?_
    intro a b ha hb hab
    have hta : a.timeSlot ∈ TIME_SLOTS :=
      (mem_allCells.mp ((List.mem_insertionSort cellLE).mp ha)).2.1
    have htb : b.timeSlot ∈ TIME_SLOTS :=
      (mem_allCells.mp ((List.mem_insertionSort cellLE).mp hb)).2.1
    rcases hab with ⟨hle, hd | ht⟩
    · rw [cellLE_iff] at hle
      unfold specCellBefore at hle ⊢
      omega
    · have hidx : TIME_SLOTS.indexOf a.timeSlot ≠ TIME_SLOTS.indexOf b.timeSlot := by
        intro he
        exact ht ((List.indexOf_inj hta htb).mp he)
      rw [cellLE_iff] at hle
      unfold specCellBefore at hle ⊢
      omega

end ShiftSpec
